import Mathlib

/-!
Verification of the `meshexp` library (Go): an in-memory hierarchical index of
MeSH subject headings.  The Go source (`meshexp.go`) is shallowly embedded here:

* Go strings are `List Char` (`Str`); `strings.Split` on a one-character
  separator is `splitOnChar`, `strings.Join` is `joinChar`,
  `strings.ToLower` is charwise `Char.toLower`.
* Go maps (`Tree = map[string]Node`, `Locations = map[string][][]string`) are
  association lists in insertion order; map iteration visits entries in that
  (arbitrary but fixed) order, which is one admissible order for Go's
  unspecified map iteration.
* Go runtime panics (index out of range in `Node.addChild` when the remaining
  location is empty, and the `panic(err)` in `MeSHTree.Reference`) are modelled
  by `Option`/`Except` error values: `none` resp. `BuildError.indexOutOfRange`.
* `MeSHTreeFromReader` consumes a list of already-scanned lines (the
  `bufio.Scanner` plumbing is out of scope).

Field names: the Go struct `MeSHTree{Tree, Locations}` is rendered with
lower-case fields `tree`/`locations` because `Tree` is also the name of the
type, as in the specification's data model.
-/

namespace Meshexp

/-- Go strings, as lists of characters. -/
abbrev Str := List Char

/-- Abbreviation for turning a Lean string literal into a `Str`. -/
def strOf (s : String) : Str := s.toList

/-- Model of `strings.ToLower` applied charwise. -/
def toLowerStr (s : Str) : Str := s.map Char.toLower

/-- Model of Go `strings.Split(l, sep)` for a one-character separator `sep`:
splits at every occurrence of the separator, never returns an empty list. -/
def splitOnChar (sep : Char) : Str → List Str
  | [] => [[]]
  | c :: rest =>
    match splitOnChar sep rest with
    | [] => [[c]]
    | p :: ps => if c = sep then [] :: p :: ps else (c :: p) :: ps

/-- Model of Go `strings.Join(parts, sep)` for a one-character separator. -/
def joinChar (sep : Char) : List Str → Str
  | [] => []
  | [p] => p
  | p :: q :: qs => p ++ sep :: joinChar sep (q :: qs)

/-- Go struct `TreeReference`: a MeSH heading together with its location
(path of segments) in the tree. -/
structure TreeReference where
  MedicalSubjectHeading : Str
  TreeLocation : List Str
deriving DecidableEq, Repr

/-- Go struct `Node`: a tree element holding a `TreeReference`, its children
(the Go map `Tree`, rendered as an association list) and a depth counter. -/
inductive Node : Type where
  | mk (Reference : TreeReference) (Children : List (Str × Node)) (Depth : Nat) : Node
deriving Repr

/-- Go type `Tree = map[string]Node`, as an association list in insertion
order. -/
abbrev Tree := List (Str × Node)

/-- Projection onto the `Reference` field of a `Node`. -/
def Node.Reference : Node → TreeReference
  | .mk r _ _ => r

/-- Projection onto the `Children` field of a `Node`. -/
def Node.Children : Node → Tree
  | .mk _ c _ => c

/-- Projection onto the `Depth` field of a `Node`. -/
def Node.Depth : Node → Nat
  | .mk _ _ d => d

/-- Go map read `t[k]` with its `ok` flag: first entry of the association
list with the given key. -/
def lookupT : Tree → Str → Option Node
  | [], _ => none
  | (k, n) :: rest, key => if k = key then some n else lookupT rest key

/-- Go map write `t[k] = v` for a key already present: replaces the value at
the first entry with that key, keeping the order of entries. -/
def updateT : Tree → Str → Node → Tree
  | [], _, _ => []
  | (k, n) :: rest, key, v => if k = key then (k, v) :: rest else (k, n) :: updateT rest key v

/-- Go type of the `Locations` field, `map[string][][]string`, as an
association list in insertion order. -/
abbrev Locs := List (Str × List (List Str))

/-- Go map read `Locations[k]` with its `ok` flag. -/
def lookupL : Locs → Str → Option (List (List Str))
  | [], _ => none
  | (k, v) :: rest, key => if k = key then some v else lookupL rest key

/-- Go statement `Locations[k] = append(Locations[k], p)`: appends the path to
the entry for `k`, creating the entry if absent. -/
def addLocation : Locs → Str → List Str → Locs
  | [], key, p => [(key, [p])]
  | (k, v) :: rest, key, p =>
    if k = key then (k, v ++ [p]) :: rest else (k, v) :: addLocation rest key p

/-- Go struct `MeSHTree`: the nested tree and the heading-to-paths index. -/
structure MeSHTree where
  tree : Tree
  locations : Locs

/-- Go function `treeReferenceFromString`: splits the line on `;`; exactly two
parts yield a reference whose location is the second part split on `.`; any
other number of parts is the `FormatError`, modelled as `Except.error`
carrying the offending line. -/
def treeReferenceFromString (text : Str) : Except Str TreeReference :=
  match splitOnChar ';' text with
  | [p0, p1] => .ok { MedicalSubjectHeading := p0, TreeLocation := splitOnChar '.' p1 }
  | _ => .error text

/-- Errors of the build: a `FormatError` carrying the offending line, or the
runtime index-out-of-range panic raised by `Node.addChild` when the remaining
location is empty. -/
inductive BuildError : Type where
  | formatError (line : Str) : BuildError
  | indexOutOfRange : BuildError
deriving DecidableEq, Repr

/-- Go method `Node.addChild(location, ref, depth)`.  Accessing `location[0]`
on an empty slice is a runtime panic, modelled as `none`.  Mutation of the
shared children maps is rendered functionally: the updated receiver node is
returned. -/
def addChild (n : Node) (location : List Str) (ref : TreeReference) (depth : Nat) : Option Node :=
  match location with
  | [] => none
  | s :: rest =>
    match lookupT n.Children s with
    | some innerNode =>
      match addChild innerNode rest ref (depth + 1) with
      | some inner2 => some (Node.mk n.Reference (updateT n.Children s inner2) n.Depth)
      | none => none
    | none => some (Node.mk n.Reference (n.Children ++ [(s, Node.mk ref [] depth)]) n.Depth)

/-- Loop body of `MeSHTreeFromReader` acting on the root tree: create a root
node for an unseen first segment, otherwise add a child to the existing root
node (Go lines 64-73).  A new root node stores the whole reference and the
zero value `0` of the omitted `Depth` field. -/
def insertTree (t : Tree) (ref : TreeReference) : Option Tree :=
  match ref.TreeLocation with
  | [] => none
  | s0 :: rest =>
    match lookupT t s0 with
    | none => some (t ++ [(s0, Node.mk ref [] 0)])
    | some n =>
      match addChild n rest ref 0 with
      | some n2 => some (updateT t s0 n2)
      | none => none

/-- One iteration of the scanner loop in `MeSHTreeFromReader`: parse the line,
insert into the tree, then record the location under the lower-cased
heading. -/
def buildStep (acc : MeSHTree) (line : Str) : Except BuildError MeSHTree :=
  match treeReferenceFromString line with
  | .error l => .error (.formatError l)
  | .ok ref =>
    match insertTree acc.tree ref with
    | none => .error .indexOutOfRange
    | some t2 =>
      .ok { tree := t2
            locations := addLocation acc.locations (toLowerStr ref.MedicalSubjectHeading) ref.TreeLocation }

/-- Go function `MeSHTreeFromReader`: folds the scanner loop over the input
lines, starting from empty maps. -/
def MeSHTreeFromReader (lines : List Str) : Except BuildError MeSHTree :=
  lines.foldlM buildStep { tree := [], locations := [] }

/-- Go method `Tree.At`: walks the location segment by segment, descending
into children; a missing segment yields the empty tree. -/
def Tree.At (t : Tree) (location : List Str) : Tree :=
  match location with
  | [] => t
  | s :: rest =>
    match lookupT t s with
    | some node => Tree.At node.Children rest
    | none => []

/-- Go method `Tree.Terms`: the headings of every node in the tree and of all
their descendants, visiting the association list in order. -/
def Tree.Terms : Tree → List Str
  | [] => []
  | (_, Node.mk r c _) :: rest => r.MedicalSubjectHeading :: (Tree.Terms c ++ Tree.Terms rest)

/-- Go method `MeSHTree.Explode`: for each recorded location of the
lower-cased term, the terms of the tree at that location, concatenated. -/
def MeSHTree.Explode (t : MeSHTree) (term : Str) : List Str :=
  match lookupL t.locations (toLowerStr term) with
  | none => []
  | some locations => locations.flatMap (fun location => Tree.Terms (Tree.At t.tree location))

/-- Go method `MeSHTree.Depth`: length of the first recorded location of the
lower-cased term, `0` when the term is absent (or, unreachable after a build,
recorded with no locations). -/
def MeSHTree.Depth (t : MeSHTree) (term : Str) : Nat :=
  match lookupL t.locations (toLowerStr term) with
  | some (location :: _) => location.length
  | some [] => 0
  | none => 0

/-- Go method `MeSHTree.Contains`: key membership in `Locations`. -/
def MeSHTree.Contains (t : MeSHTree) (term : Str) : Bool :=
  match lookupL t.locations (toLowerStr term) with
  | some _ => true
  | none => false

/-- The inner comparison loop of `MeSHTree.Parents` (Go lines 129-135):
`for i, v := range loc { if v != parent.Reference.TreeLocation[i] ... }`.
Iterates over `loc`, reading the candidate's path at the same index; reading
past its end is a runtime panic, modelled as `none`; a mismatch stops the loop
with `some false`. -/
def locMatch : List Str → List Str → Option Bool
  | [], _ => some true
  | _ :: _, [] => none
  | v :: loc, w :: pl => if v ≠ w then some false else locMatch loc pl

/-- The candidate loop of `MeSHTree.Parents` (Go lines 126-140): collect the
headings of the entries whose stored path matches `loc`, propagating the
panic of the comparison loop. -/
def matchCandidates (loc : List Str) : Tree → Option (List Str)
  | [] => some []
  | (_, n) :: rest =>
    match locMatch loc n.Reference.TreeLocation with
    | none => none
    | some b =>
      match matchCandidates loc rest with
      | none => none
      | some tl => some (if b then n.Reference.MedicalSubjectHeading :: tl else tl)

/-- Body of `MeSHTree.Parents` for one recorded location: nothing for
locations of length at most two, otherwise the matching candidates one level
above, taken from the tree resolved two levels above. -/
def parentsAtLoc (t : Tree) (location : List Str) : Option (List Str) :=
  if 2 < location.length then
    matchCandidates (location.take (location.length - 1))
      (Tree.At t (location.take (location.length - 2)))
  else some []

/-- The location loop of `MeSHTree.Parents`, concatenating the parents found
at each recorded location. -/
def parentsLoop (t : Tree) : List (List Str) → Option (List Str)
  | [] => some []
  | location :: rest =>
    match parentsAtLoc t location with
    | none => none
    | some ps =>
      match parentsLoop t rest with
      | none => none
      | some tl => some (ps ++ tl)

/-- Go method `MeSHTree.Parents`.  The result is `none` when the Go code
would panic with an index out of range in the comparison loop, and
`some parents` otherwise. -/
def MeSHTree.Parents (t : MeSHTree) (term : Str) : Option (List Str) :=
  match lookupL t.locations (toLowerStr term) with
  | none => some []
  | some locations => parentsLoop t.tree locations

/-- The loop of `MeSHTree.Reference`: re-parse `"term;loc"` for each recorded
location; a parse failure is the Go `panic(err)`, modelled as `none`. -/
def referenceLoop (term : Str) : List (List Str) → Option (List TreeReference)
  | [] => some []
  | location :: rest =>
    match treeReferenceFromString (term ++ ';' :: joinChar '.' location) with
    | .error _ => none
    | .ok ref =>
      match referenceLoop term rest with
      | none => none
      | some tl => some (ref :: tl)

/-- Go method `MeSHTree.Reference`.  The result is `none` when the Go code
would reach its `panic(err)` branch; an absent term yields the Go `nil`
return, modelled as `some []`. -/
def MeSHTree.Reference (t : MeSHTree) (term : Str) : Option (List TreeReference) :=
  match lookupL t.locations (toLowerStr term) with
  | none => some []
  | some locations => referenceLoop term locations

/-- A line is well formed when it splits into exactly two parts on the `;`
separator. -/
def wellFormed (line : Str) : Bool := (splitOnChar ';' line).length == 2

/-- Resolution of a path to the node it denotes: walk the segments in order
from the root tree; the empty path denotes no node. -/
def resolveNode (t : Tree) (p : List Str) : Option Node :=
  match p with
  | [] => none
  | s :: rest =>
    match lookupT t s with
    | none => none
    | some n => if rest = [] then some n else resolveNode n.Children rest

/-- Spec-side comparison, from the claim's words: the candidate's stored path
matches the location element for element (at every index of the location). -/
def elementwiseMatch : List Str → List Str → Bool
  | [], _ => true
  | _ :: _, [] => false
  | v :: loc, w :: pl => v = w && elementwiseMatch loc pl

/-- Spec-side description of `Parents` at one recorded location, from the
claim's words: for a location of length greater than two, the headings of
exactly those entries of the tree resolved two levels above whose stored
reference's path matches the location one level above element for element. -/
def parentsSpecAtLoc (t : Tree) (p : List Str) : List Str :=
  if 2 < p.length then
    ((Tree.At t (p.take (p.length - 2))).filter
        (fun e => elementwiseMatch (p.take (p.length - 1)) e.2.Reference.TreeLocation)).map
      (fun e => e.2.Reference.MedicalSubjectHeading)
  else []

/-- The recorded paths of a term: the entry of `locations` at the lower-cased
term, or no paths at all. -/
def pathsOf (t : MeSHTree) (term : Str) : List (List Str) :=
  (lookupL t.locations (toLowerStr term)).getD []

mutual

/-- Spec-side headings of a node and of all of its descendants. -/
def nodeSubtreeHeadings : Node → List Str
  | .mk r c _ => r.MedicalSubjectHeading :: forestSubtreeHeadings c

/-- Spec-side headings of every node of a forest together with all of their
descendants. -/
def forestSubtreeHeadings : List (Str × Node) → List Str
  | [] => []
  | e :: rest => nodeSubtreeHeadings e.2 ++ forestSubtreeHeadings rest

end

/-- Spec-side description of the amended `Explode` at one path: the headings
of the strict descendants of the node the path resolves to, nothing when the
path resolves to no node. -/
def descendantHeadingsAt (t : Tree) (p : List Str) : List Str :=
  match resolveNode t p with
  | some n => forestSubtreeHeadings n.Children
  | none => []

/-! ### Lemmas about the string model -/

theorem splitOnChar_ne_nil (sep : Char) (l : Str) : splitOnChar sep l ≠ [] := by
  induction l with
  | nil => simp [splitOnChar]
  | cons c rest ih =>
    unfold splitOnChar
    cases h : splitOnChar sep rest with
    | nil => simp
    | cons p ps => by_cases hc : c = sep <;> simp [hc]

theorem joinChar_splitOnChar (sep : Char) (l : Str) :
    joinChar sep (splitOnChar sep l) = l := by
  induction l with
  | nil => rfl
  | cons c rest ih =>
    unfold splitOnChar
    cases h : splitOnChar sep rest with
    | nil => exact absurd h (splitOnChar_ne_nil sep rest)
    | cons p ps =>
      rw [h] at ih
      by_cases hc : c = sep
      · subst hc
        simp only [if_pos rfl]
        cases ps <;> simp_all [joinChar]
      · simp only [if_neg hc]
        cases ps <;> simp_all [joinChar]

theorem not_mem_of_mem_splitOnChar (sep : Char) (l p : Str)
    (hp : p ∈ splitOnChar sep l) : sep ∉ p := by
  induction l generalizing p with
  | nil => simp [splitOnChar] at hp; simp [hp]
  | cons c rest ih =>
    unfold splitOnChar at hp
    cases h : splitOnChar sep rest with
    | nil => exact absurd h (splitOnChar_ne_nil sep rest)
    | cons q qs =>
      rw [h] at hp
      dsimp only at hp
      by_cases hc : c = sep
      · rw [if_pos hc] at hp
        rcases List.mem_cons.mp hp with h1 | h1
        · simp [h1]
        · exact ih p (h ▸ h1)
      · rw [if_neg hc] at hp
        rcases List.mem_cons.mp hp with h1 | h1
        · subst h1
          intro hmem
          rcases List.mem_cons.mp hmem with h2 | h2
          · exact hc h2.symm
          · exact ih q (h ▸ List.mem_cons_self q qs) h2
        · exact ih p (h ▸ List.mem_cons_of_mem q h1)

theorem mem_of_mem_splitOnChar (sep : Char) (l p : Str) (x : Char)
    (hp : p ∈ splitOnChar sep l) (hx : x ∈ p) : x ∈ l := by
  induction l generalizing p with
  | nil => simp [splitOnChar] at hp; subst hp; simp at hx
  | cons c rest ih =>
    unfold splitOnChar at hp
    cases h : splitOnChar sep rest with
    | nil => exact absurd h (splitOnChar_ne_nil sep rest)
    | cons q qs =>
      rw [h] at hp
      dsimp only at hp
      by_cases hc : c = sep
      · rw [if_pos hc] at hp
        rcases List.mem_cons.mp hp with h1 | h1
        · subst h1; simp at hx
        · exact List.mem_cons_of_mem c (ih p (h ▸ h1) hx)
      · rw [if_neg hc] at hp
        rcases List.mem_cons.mp hp with h1 | h1
        · subst h1
          rcases List.mem_cons.mp hx with h2 | h2
          · simp [h2]
          · exact List.mem_cons_of_mem c (ih q (h ▸ List.mem_cons_self q qs) h2)
        · exact List.mem_cons_of_mem c (ih p (h ▸ List.mem_cons_of_mem q h1) hx)

theorem splitOnChar_no_sep (sep : Char) (l : Str) (h : sep ∉ l) :
    splitOnChar sep l = [l] := by
  induction l with
  | nil => rfl
  | cons c rest ih =>
    have hc : ¬ c = sep := fun he => h (by simp [he])
    have hrest : sep ∉ rest := fun hm => h (List.mem_cons_of_mem c hm)
    unfold splitOnChar
    rw [ih hrest]
    dsimp only
    rw [if_neg hc]

theorem splitOnChar_append_sep (sep : Char) (a b : Str) (ha : sep ∉ a) (hb : sep ∉ b) :
    splitOnChar sep (a ++ sep :: b) = [a, b] := by
  induction a with
  | nil =>
    show splitOnChar sep (sep :: b) = [[], b]
    unfold splitOnChar
    rw [splitOnChar_no_sep sep b hb]
    dsimp only
    rw [if_pos rfl]
  | cons c a2 ih =>
    have hc : ¬ c = sep := fun he => ha (by simp [he])
    have ha2 : sep ∉ a2 := fun hm => ha (List.mem_cons_of_mem c hm)
    show splitOnChar sep (c :: (a2 ++ sep :: b)) = [c :: a2, b]
    unfold splitOnChar
    rw [ih ha2]
    dsimp only
    rw [if_neg hc]

theorem mem_joinChar (sep : Char) (parts : List Str) (x : Char)
    (hx : x ∈ joinChar sep parts) : x = sep ∨ ∃ p ∈ parts, x ∈ p := by
  induction parts with
  | nil => simp [joinChar] at hx
  | cons p ps ih =>
    cases ps with
    | nil => exact Or.inr ⟨p, by simp, hx⟩
    | cons q qs =>
      rw [show joinChar sep (p :: q :: qs) = p ++ sep :: joinChar sep (q :: qs) from rfl] at hx
      rcases List.mem_append.mp hx with h1 | h1
      · exact Or.inr ⟨p, by simp, h1⟩
      · rcases List.mem_cons.mp h1 with h2 | h2
        · exact Or.inl h2
        · rcases ih h2 with h3 | ⟨r, hr, hxr⟩
          · exact Or.inl h3
          · exact Or.inr ⟨r, List.mem_cons_of_mem p hr, hxr⟩

theorem char_toLower_eq_semicolon (c : Char) (h : c.toLower = ';') : c = ';' := by
  rw [Char.toLower] at h
  split at h
  · rename_i hin
    exfalso
    have hv : (c.toNat + 32).isValidChar := Or.inl (by omega)
    have h2 := congrArg Char.toNat h
    rw [Char.ofNat, dif_pos hv] at h2
    have h3 : (Char.ofNatAux (c.toNat + 32) hv).toNat = c.toNat + 32 := rfl
    rw [h3] at h2
    have h4 : Char.toNat ';' = 59 := rfl
    omega
  · exact h

theorem semicolon_mem_toLowerStr_iff (s : Str) : ';' ∈ toLowerStr s ↔ ';' ∈ s := by
  unfold toLowerStr
  constructor
  · intro h
    obtain ⟨c, hc, he⟩ := List.mem_map.mp h
    exact (char_toLower_eq_semicolon c he) ▸ hc
  · intro h
    exact List.mem_map.mpr ⟨';', h, by decide⟩

/-! ### Lemmas about the association-list maps -/

theorem lookupT_mem {t : Tree} {s : Str} {n : Node} (h : lookupT t s = some n) :
    (s, n) ∈ t := by
  induction t with
  | nil => simp [lookupT] at h
  | cons e rest ih =>
    obtain ⟨k, v⟩ := e
    unfold lookupT at h
    by_cases hk : k = s
    · rw [if_pos hk] at h
      cases h
      exact hk ▸ List.mem_cons_self _ _
    · rw [if_neg hk] at h
      exact List.mem_cons_of_mem _ (ih h)

theorem mem_updateT {t : Tree} {s : Str} {v : Node} {e : Str × Node}
    (h : e ∈ updateT t s v) : e ∈ t ∨ e = (s, v) := by
  induction t with
  | nil => simp [updateT] at h
  | cons e2 rest ih =>
    obtain ⟨k, n⟩ := e2
    unfold updateT at h
    by_cases hk : k = s
    · rw [if_pos hk] at h
      rcases List.mem_cons.mp h with h1 | h1
      · exact Or.inr (by simp [h1, hk])
      · exact Or.inl (List.mem_cons_of_mem _ h1)
    · rw [if_neg hk] at h
      rcases List.mem_cons.mp h with h1 | h1
      · exact Or.inl (h1 ▸ List.mem_cons_self _ _)
      · rcases ih h1 with h2 | h2
        · exact Or.inl (List.mem_cons_of_mem _ h2)
        · exact Or.inr h2

theorem lookupT_updateT_isSome {t : Tree} {s k : Str} {v : Node}
    (h : (lookupT t k).isSome) : (lookupT (updateT t s v) k).isSome := by
  induction t with
  | nil => simp [lookupT] at h
  | cons e rest ih =>
    obtain ⟨k2, n⟩ := e
    unfold updateT
    by_cases hk : k2 = s
    · rw [if_pos hk]
      unfold lookupT at h ⊢
      by_cases hk2 : k2 = k <;> simp [hk2] at h ⊢
      exact h
    · rw [if_neg hk]
      unfold lookupT at h ⊢
      by_cases hk2 : k2 = k <;> simp [hk2] at h ⊢
      exact ih h

theorem lookupT_updateT_self {t : Tree} {s : Str} {v : Node}
    (h : (lookupT t s).isSome) : lookupT (updateT t s v) s = some v := by
  induction t with
  | nil => simp [lookupT] at h
  | cons e rest ih =>
    obtain ⟨k, n⟩ := e
    unfold updateT
    by_cases hk : k = s
    · rw [if_pos hk]
      unfold lookupT
      rw [if_pos hk]
    · rw [if_neg hk]
      unfold lookupT
      rw [if_neg hk]
      unfold lookupT at h
      rw [if_neg hk] at h
      exact ih h

theorem lookupT_append_left_isSome {t t2 : Tree} {k : Str}
    (h : (lookupT t k).isSome) : (lookupT (t ++ t2) k).isSome := by
  induction t with
  | nil => simp [lookupT] at h
  | cons e rest ih =>
    obtain ⟨k2, n⟩ := e
    unfold lookupT at h ⊢
    by_cases hk : k2 = k <;> simp [hk] at h ⊢
    · exact ih h

theorem lookupT_append_single_self {t : Tree} {k : Str} {n : Node} :
    (lookupT (t ++ [(k, n)]) k).isSome := by
  induction t with
  | nil => simp [lookupT]
  | cons e rest ih =>
    obtain ⟨k2, n2⟩ := e
    unfold lookupT
    by_cases hk : k2 = k <;> simp [hk]
    · exact ih

theorem mem_addLocation {locs : Locs} {key : Str} {p : List Str} {kv : Str × List (List Str)}
    (h : kv ∈ addLocation locs key p) :
    (kv.1 = key ∧ kv.2 = [p]) ∨ ∃ kv0 ∈ locs, kv.1 = kv0.1 ∧ (kv.2 = kv0.2 ∨ kv.2 = kv0.2 ++ [p]) := by
  induction locs with
  | nil =>
    simp [addLocation] at h
    exact Or.inl (by simp [h])
  | cons e rest ih =>
    obtain ⟨k, v⟩ := e
    unfold addLocation at h
    by_cases hk : k = key
    · rw [if_pos hk] at h
      rcases List.mem_cons.mp h with h1 | h1
      · exact Or.inr ⟨(k, v), List.mem_cons_self _ _, by simp [h1]⟩
      · exact Or.inr ⟨kv, List.mem_cons_of_mem _ h1, rfl, Or.inl rfl⟩
    · rw [if_neg hk] at h
      rcases List.mem_cons.mp h with h1 | h1
      · exact Or.inr ⟨(k, v), List.mem_cons_self _ _, by simp [h1]⟩
      · rcases ih h1 with h2 | ⟨kv0, hkv0, h3⟩
        · exact Or.inl h2
        · exact Or.inr ⟨kv0, List.mem_cons_of_mem _ hkv0, h3⟩

/-! ### The depth invariant of the tree -/

/-- Invariant of every node reachable at depth `d` in a built tree: the stored
reference's location has at least `d` segments, recursively for the
children one level deeper. -/
inductive InvN : Node → Nat → Prop where
  | intro : ∀ (r : TreeReference) (c : Tree) (dep d : Nat),
      d ≤ r.TreeLocation.length →
      (∀ e ∈ c, InvN e.2 (d + 1)) →
      InvN (Node.mk r c dep) d

theorem InvN.bound {n : Node} {d : Nat} (h : InvN n d) :
    d ≤ n.Reference.TreeLocation.length := by
  cases h with
  | intro r c dep d hb hc => exact hb

theorem InvN.child {n : Node} {d : Nat} (h : InvN n d) :
    ∀ e ∈ n.Children, InvN e.2 (d + 1) := by
  cases h with
  | intro r c dep d hb hc => exact hc

/-- Invariant of a whole level of the tree: every entry's node satisfies
`InvN` at the given depth. -/
def TreeInvD (t : Tree) (d : Nat) : Prop := ∀ e ∈ t, InvN e.2 d

theorem addChild_invN : ∀ (loc : List Str) (n : Node) (ref : TreeReference) (g d : Nat)
    (n2 : Node), InvN n d → d + loc.length ≤ ref.TreeLocation.length →
    addChild n loc ref g = some n2 → InvN n2 d := by
  intro loc
  induction loc with
  | nil =>
    intro n ref g d n2 _ _ h
    simp [addChild] at h
  | cons s rest ih =>
    intro n ref g d n2 hn hlen h
    unfold addChild at h
    cases hl : lookupT n.Children s with
    | some innerNode =>
      rw [hl] at h
      dsimp only at h
      cases ha : addChild innerNode rest ref (g + 1) with
      | none => rw [ha] at h; simp at h
      | some inner2 =>
        rw [ha] at h
        dsimp only at h
        simp at h
        subst h
        refine InvN.intro _ _ _ _ hn.bound ?_
        intro e he
        rcases mem_updateT he with h1 | h1
        · exact hn.child e h1
        · subst h1
          exact ih innerNode ref (g + 1) (d + 1) inner2
            (hn.child (s, innerNode) (lookupT_mem hl))
            (by simp only [List.length_cons] at hlen; omega) ha
    | none =>
      rw [hl] at h
      dsimp only at h
      simp at h
      subst h
      refine InvN.intro _ _ _ _ hn.bound ?_
      intro e he
      rcases List.mem_append.mp he with h1 | h1
      · exact hn.child e h1
      · simp at h1
        subst h1
        refine InvN.intro _ _ _ _ ?_ (by intro e he; simp at he)
        simp only [List.length_cons] at hlen
        omega

theorem insertTree_invN {t : Tree} {ref : TreeReference} {t2 : Tree}
    (ht : TreeInvD t 1) (hr : ref.TreeLocation ≠ []) (h : insertTree t ref = some t2) :
    TreeInvD t2 1 := by
  unfold insertTree at h
  cases hloc : ref.TreeLocation with
  | nil => exact absurd hloc hr
  | cons s0 rest =>
    rw [hloc] at h
    dsimp only at h
    cases hl : lookupT t s0 with
    | none =>
      rw [hl] at h
      dsimp only at h
      simp at h
      subst h
      intro e he
      rcases List.mem_append.mp he with h1 | h1
      · exact ht e h1
      · simp at h1
        subst h1
        refine InvN.intro _ _ _ _ (by simp [hloc]) (by intro e he; simp at he)
    | some n =>
      rw [hl] at h
      dsimp only at h
      cases ha : addChild n rest ref 0 with
      | none => rw [ha] at h; simp at h
      | some n2 =>
        rw [ha] at h
        dsimp only at h
        simp at h
        subst h
        intro e he
        rcases mem_updateT he with h1 | h1
        · exact ht e h1
        · subst h1
          exact addChild_invN rest n ref 0 1 n2 (ht (s0, n) (lookupT_mem hl))
            (by simp only [hloc, List.length_cons]; omega) ha

theorem insertTree_lookup_isSome {t : Tree} {ref : TreeReference} {t2 : Tree} {k : Str}
    (h : insertTree t ref = some t2) (hk : (lookupT t k).isSome) :
    (lookupT t2 k).isSome := by
  unfold insertTree at h
  cases hloc : ref.TreeLocation with
  | nil => rw [hloc] at h; simp at h
  | cons s0 rest =>
    rw [hloc] at h
    dsimp only at h
    cases hl : lookupT t s0 with
    | none =>
      rw [hl] at h
      dsimp only at h
      simp at h
      subst h
      exact lookupT_append_left_isSome hk
    | some n =>
      rw [hl] at h
      dsimp only at h
      cases ha : addChild n rest ref 0 with
      | none => rw [ha] at h; simp at h
      | some n2 =>
        rw [ha] at h
        dsimp only at h
        simp at h
        subst h
        exact lookupT_updateT_isSome hk

theorem insertTree_lookup_head {t : Tree} {ref : TreeReference} {t2 : Tree} {s0 : Str}
    {rest : List Str} (h : insertTree t ref = some t2)
    (hloc : ref.TreeLocation = s0 :: rest) : (lookupT t2 s0).isSome := by
  unfold insertTree at h
  rw [hloc] at h
  dsimp only at h
  cases hl : lookupT t s0 with
  | none =>
    rw [hl] at h
    dsimp only at h
    simp at h
    subst h
    exact lookupT_append_single_self
  | some n =>
    rw [hl] at h
    dsimp only at h
    cases ha : addChild n rest ref 0 with
    | none => rw [ha] at h; simp at h
    | some n2 =>
      rw [ha] at h
      dsimp only at h
      simp at h
      subst h
      rw [lookupT_updateT_self (by simp [hl])]
      rfl

/-! ### Resolution lemmas -/

theorem resolveNode_invN : ∀ (q : List Str) (t : Tree) (d : Nat) (n : Node),
    TreeInvD t d → resolveNode t q = some n →
    d + q.length ≤ n.Reference.TreeLocation.length + 1 := by
  intro q
  induction q with
  | nil => intro t d n _ h; simp [resolveNode] at h
  | cons s rest ih =>
    intro t d n ht h
    unfold resolveNode at h
    cases hl : lookupT t s with
    | none => rw [hl] at h; simp at h
    | some m =>
      rw [hl] at h
      dsimp only at h
      have hm : InvN m d := ht (s, m) (lookupT_mem hl)
      by_cases hr : rest = []
      · rw [if_pos hr] at h
        cases h
        have := hm.bound
        simp [hr]
        omega
      · rw [if_neg hr] at h
        have := ih m.Children (d + 1) n hm.child h
        simp only [List.length_cons]
        omega

theorem resolveNode_children_invN : ∀ (q : List Str) (t : Tree) (d : Nat) (n : Node),
    TreeInvD t d → resolveNode t q = some n → TreeInvD n.Children (d + q.length) := by
  intro q
  induction q with
  | nil => intro t d n _ h; simp [resolveNode] at h
  | cons s rest ih =>
    intro t d n ht h
    unfold resolveNode at h
    cases hl : lookupT t s with
    | none => rw [hl] at h; simp at h
    | some m =>
      rw [hl] at h
      dsimp only at h
      have hm : InvN m d := ht (s, m) (lookupT_mem hl)
      by_cases hr : rest = []
      · rw [if_pos hr] at h
        cases h
        subst hr
        intro e he
        exact hm.child e he
      · rw [if_neg hr] at h
        have h1 := ih m.Children (d + 1) n hm.child h
        have h2 : d + (s :: rest).length = d + 1 + rest.length := by
          simp only [List.length_cons]
          omega
        rw [h2]
        exact h1

theorem at_eq_resolveNode : ∀ (p : List Str) (t : Tree), p ≠ [] →
    Tree.At t p = (match resolveNode t p with
      | some n => n.Children
      | none => []) := by
  intro p
  induction p with
  | nil => intro t h; exact absurd rfl h
  | cons s rest ih =>
    intro t _
    unfold Tree.At resolveNode
    cases hl : lookupT t s with
    | none => simp
    | some m =>
      simp only
      by_cases hr : rest = []
      · subst hr
        simp [Tree.At]
      · rw [if_neg hr]
        exact ih m.Children hr

/-! ### Lemmas about the parser -/

theorem parse_ok {line p0 p1 : Str} (h : splitOnChar ';' line = [p0, p1]) :
    treeReferenceFromString line =
      .ok { MedicalSubjectHeading := p0, TreeLocation := splitOnChar '.' p1 } := by
  unfold treeReferenceFromString
  rw [h]

theorem parse_error {line : Str} (h : (splitOnChar ';' line).length ≠ 2) :
    treeReferenceFromString line = .error line := by
  unfold treeReferenceFromString
  cases hs : splitOnChar ';' line with
  | nil => rfl
  | cons a l2 =>
    cases l2 with
    | nil => rfl
    | cons b l3 =>
      cases l3 with
      | nil => rw [hs] at h; simp at h
      | cons c l4 => rfl

theorem parse_ok_shape {line : Str} {ref : TreeReference}
    (h : treeReferenceFromString line = .ok ref) :
    ∃ p0 p1, splitOnChar ';' line = [p0, p1] ∧ ref.MedicalSubjectHeading = p0 ∧
      ref.TreeLocation = splitOnChar '.' p1 := by
  unfold treeReferenceFromString at h
  cases hs : splitOnChar ';' line with
  | nil => rw [hs] at h; simp at h
  | cons a l2 =>
    cases l2 with
    | nil => rw [hs] at h; simp at h
    | cons b l3 =>
      cases l3 with
      | nil =>
        rw [hs] at h
        simp at h
        exact ⟨a, b, rfl, by simp [← h], by simp [← h]⟩
      | cons c l4 => rw [hs] at h; simp at h

/-- Properties of a successfully parsed reference: the location is non-empty,
no segment of the location contains a `;`, and the heading contains no `;`. -/
theorem parse_ok_props {line : Str} {ref : TreeReference}
    (h : treeReferenceFromString line = .ok ref) :
    ref.TreeLocation ≠ [] ∧ (∀ s ∈ ref.TreeLocation, ';' ∉ s) ∧
      ';' ∉ ref.MedicalSubjectHeading := by
  obtain ⟨p0, p1, hs, hh, hl⟩ := parse_ok_shape h
  refine ⟨hl ▸ splitOnChar_ne_nil '.' p1, ?_, ?_⟩
  · intro s hsmem c
    rw [hl] at hsmem
    have hc : ';' ∈ p1 := mem_of_mem_splitOnChar '.' p1 s ';' hsmem c
    exact not_mem_of_mem_splitOnChar ';' line p1 (hs ▸ (by simp)) hc
  · rw [hh]
    exact not_mem_of_mem_splitOnChar ';' line p0 (hs ▸ (by simp))

/-! ### The build invariant -/

/-- Invariant of the `locations` index relative to the tree: every key is free
of `;`, every entry is non-empty, and every recorded path is non-empty with a
first segment present at the tree root and all segments free of `;`. -/
def LocsOK (ix : MeSHTree) : Prop :=
  ∀ kv ∈ ix.locations, (';' ∉ kv.1) ∧ kv.2 ≠ [] ∧
    ∀ p ∈ kv.2, (∃ s0 rest, p = s0 :: rest ∧ (lookupT ix.tree s0).isSome) ∧
      ∀ s ∈ p, ';' ∉ s

/-- Invariant maintained by the build loop. -/
def GoodIx (ix : MeSHTree) : Prop := TreeInvD ix.tree 1 ∧ LocsOK ix

theorem buildStep_good {ix ix2 : MeSHTree} {line : Str} (hg : GoodIx ix)
    (h : buildStep ix line = .ok ix2) : GoodIx ix2 := by
  unfold buildStep at h
  cases hp : treeReferenceFromString line with
  | error l => rw [hp] at h; simp at h
  | ok ref =>
    rw [hp] at h
    dsimp only at h
    cases hi : insertTree ix.tree ref with
    | none => rw [hi] at h; simp at h
    | some t2 =>
      rw [hi] at h
      dsimp only at h
      cases h
      obtain ⟨hloc_ne, hsegs, hhead⟩ := parse_ok_props hp
      constructor
      · exact insertTree_invN hg.1 hloc_ne hi
      · intro kv hkv
        rcases mem_addLocation hkv with ⟨hk, hv⟩ | ⟨kv0, hkv0, hk, hv⟩
        · refine ⟨?_, by simp [hv], ?_⟩
          · rw [hk]
            intro hc
            exact hhead ((semicolon_mem_toLowerStr_iff ref.MedicalSubjectHeading).mp hc)
          · intro p hp2
            rw [hv] at hp2
            simp at hp2
            subst hp2
            cases hloc2 : ref.TreeLocation with
            | nil => exact absurd hloc2 hloc_ne
            | cons s0 rest =>
              exact ⟨⟨s0, rest, rfl, insertTree_lookup_head hi hloc2⟩,
                fun s hsm => hsegs s (hloc2 ▸ hsm)⟩
        · obtain ⟨hsemi, hne, hps⟩ := hg.2 kv0 hkv0
          refine ⟨hk ▸ hsemi, ?_, ?_⟩
          · rcases hv with hv | hv <;> rw [hv] <;> simp [hne]
          · intro p hp2
            have hold : ∀ p2 ∈ kv0.2,
                (∃ s0 rest, p2 = s0 :: rest ∧ (lookupT t2 s0).isSome) ∧
                  ∀ s ∈ p2, ';' ∉ s := by
              intro p2 hp3
              obtain ⟨⟨s0, rest, he, hsome⟩, hsc⟩ := hps p2 hp3
              exact ⟨⟨s0, rest, he, insertTree_lookup_isSome hi hsome⟩, hsc⟩
            rcases hv with hv | hv
            · exact hold p (hv ▸ hp2)
            · rw [hv] at hp2
              rcases List.mem_append.mp hp2 with h1 | h1
              · exact hold p h1
              · simp at h1
                subst h1
                cases hloc2 : ref.TreeLocation with
                | nil => exact absurd hloc2 hloc_ne
                | cons s0 rest =>
                  exact ⟨⟨s0, rest, rfl, insertTree_lookup_head hi hloc2⟩,
                    fun s hsm => hsegs s (hloc2 ▸ hsm)⟩

theorem foldlM_build_nil (init : MeSHTree) :
    List.foldlM buildStep init [] = .ok init := rfl

theorem foldlM_build_cons (init : MeSHTree) (l : Str) (ls : List Str) :
    List.foldlM buildStep init (l :: ls) =
      (match buildStep init l with
        | .ok ix1 => List.foldlM buildStep ix1 ls
        | .error e => .error e) := by
  cases hs : buildStep init l <;>
    simp only [List.foldlM_cons, hs] <;> rfl

theorem foldlM_good : ∀ (lines : List Str) (ix0 ix : MeSHTree), GoodIx ix0 →
    List.foldlM buildStep ix0 lines = .ok ix → GoodIx ix := by
  intro lines
  induction lines with
  | nil =>
    intro ix0 ix hg h
    rw [foldlM_build_nil] at h
    cases h
    exact hg
  | cons l ls ih =>
    intro ix0 ix hg h
    rw [foldlM_build_cons] at h
    cases hs : buildStep ix0 l with
    | error e => rw [hs] at h; simp at h
    | ok ix1 =>
      rw [hs] at h
      dsimp only at h
      exact ih ix1 ix (buildStep_good hg hs) h

theorem build_good {lines : List Str} {ix : MeSHTree}
    (h : MeSHTreeFromReader lines = .ok ix) : GoodIx ix :=
  foldlM_good lines { tree := [], locations := [] } ix
    ⟨by intro e he; simp at he, by intro kv hkv; simp at hkv⟩ h

theorem foldlM_build_append : ∀ (pre rest : List Str) (init ix : MeSHTree),
    List.foldlM buildStep init pre = .ok ix →
    List.foldlM buildStep init (pre ++ rest) = List.foldlM buildStep ix rest := by
  intro pre
  induction pre with
  | nil =>
    intro rest init ix h
    rw [foldlM_build_nil] at h
    cases h
    rw [List.nil_append]
  | cons l ls ih =>
    intro rest init ix h
    rw [foldlM_build_cons] at h
    rw [List.cons_append, foldlM_build_cons]
    cases hs : buildStep init l with
    | error e => rw [hs] at h; simp at h
    | ok ix1 =>
      rw [hs] at h
      dsimp only at h ⊢
      exact ih rest ix1 ix h

/-! ### Lemmas about the Parents machinery -/

theorem locMatch_eq : ∀ (a b : List Str), a.length ≤ b.length →
    locMatch a b = some (elementwiseMatch a b) := by
  intro a
  induction a with
  | nil => intro b _; rfl
  | cons v l ih =>
    intro b hlen
    cases b with
    | nil => simp at hlen
    | cons w bs =>
      by_cases hv : v = w
      · subst hv
        rw [show locMatch (v :: l) (v :: bs) = locMatch l bs by simp [locMatch]]
        rw [show elementwiseMatch (v :: l) (v :: bs) = elementwiseMatch l bs by
          simp [elementwiseMatch]]
        exact ih bs (by simpa using hlen)
      · simp [locMatch, elementwiseMatch, hv]

theorem matchCandidates_eq : ∀ (cands : Tree) (loc : List Str),
    (∀ e ∈ cands, loc.length ≤ e.2.Reference.TreeLocation.length) →
    matchCandidates loc cands = some
      ((cands.filter (fun e => elementwiseMatch loc e.2.Reference.TreeLocation)).map
        (fun e => e.2.Reference.MedicalSubjectHeading)) := by
  intro cands
  induction cands with
  | nil => intro loc _; rfl
  | cons e rest ih =>
    intro loc hlen
    obtain ⟨s, n⟩ := e
    unfold matchCandidates
    rw [locMatch_eq loc n.Reference.TreeLocation (hlen (s, n) (List.mem_cons_self _ _))]
    dsimp only
    rw [ih loc (fun e2 he2 => hlen e2 (List.mem_cons_of_mem _ he2))]
    dsimp only
    by_cases hb : elementwiseMatch loc n.Reference.TreeLocation = true
    · simp [List.filter_cons, hb]
    · simp only [Bool.not_eq_true] at hb
      simp [List.filter_cons, hb]

theorem parentsAtLoc_eq {t : Tree} (ht : TreeInvD t 1) (p : List Str) :
    parentsAtLoc t p = some (parentsSpecAtLoc t p) := by
  unfold parentsAtLoc parentsSpecAtLoc
  by_cases hlen : 2 < p.length
  · rw [if_pos hlen, if_pos hlen]
    have hq_len : (p.take (p.length - 2)).length = p.length - 2 := by
      rw [List.length_take]
      omega
    have hq_ne : p.take (p.length - 2) ≠ [] := by
      intro hnil
      rw [hnil] at hq_len
      simp at hq_len
      omega
    apply matchCandidates_eq
    intro e he
    rw [at_eq_resolveNode (p.take (p.length - 2)) t hq_ne] at he
    cases hres : resolveNode t (p.take (p.length - 2)) with
    | none => rw [hres] at he; simp at he
    | some n0 =>
      rw [hres] at he
      dsimp only at he
      have hc := resolveNode_children_invN (p.take (p.length - 2)) t 1 n0 ht hres e he
      have hb := hc.bound
      rw [List.length_take]
      rw [hq_len] at hb
      omega
  · rw [if_neg hlen, if_neg hlen]

theorem parentsLoop_eq {t : Tree} (ht : TreeInvD t 1) : ∀ (ls : List (List Str)),
    parentsLoop t ls = some (ls.flatMap (parentsSpecAtLoc t)) := by
  intro ls
  induction ls with
  | nil => rfl
  | cons p ps ih =>
    unfold parentsLoop
    rw [parentsAtLoc_eq ht p]
    dsimp only
    rw [ih]
    dsimp only
    rw [List.flatMap_cons]

/-! ### Lemmas about Terms and the Reference machinery -/

theorem terms_eq_forest : ∀ (t : Tree), Tree.Terms t = forestSubtreeHeadings t := by
  intro t
  induction t using Tree.Terms.induct with
  | case1 => simp [Tree.Terms, forestSubtreeHeadings]
  | case2 s r c dep rest ihc ihr =>
    rw [Tree.Terms, forestSubtreeHeadings, nodeSubtreeHeadings]
    rw [ihc, ihr]
    simp [Node.Children]

theorem referenceLoop_some (term : Str) (hterm : ';' ∉ term) : ∀ (ls : List (List Str)),
    (∀ p ∈ ls, ∀ s ∈ p, ';' ∉ s) → ∃ rs, referenceLoop term ls = some rs := by
  intro ls
  induction ls with
  | nil => intro _; exact ⟨[], rfl⟩
  | cons p ps ih =>
    intro h
    have hj : ';' ∉ joinChar '.' p := by
      intro hc
      rcases mem_joinChar '.' p ';' hc with h1 | ⟨q, hq, hcq⟩
      · exact absurd h1 (by decide)
      · exact h p (List.mem_cons_self _ _) q hq hcq
    have hsplit := splitOnChar_append_sep ';' term (joinChar '.' p) hterm hj
    unfold referenceLoop
    rw [parse_ok hsplit]
    dsimp only
    obtain ⟨rs, hrs⟩ := ih (fun p2 hp2 => h p2 (List.mem_cons_of_mem _ hp2))
    rw [hrs]
    exact ⟨_, rfl⟩

theorem lookupL_mem {locs : Locs} {k : Str} {v : List (List Str)}
    (h : lookupL locs k = some v) : (k, v) ∈ locs := by
  induction locs with
  | nil => simp [lookupL] at h
  | cons e rest ih =>
    obtain ⟨k2, v2⟩ := e
    unfold lookupL at h
    by_cases hk : k2 = k
    · rw [if_pos hk] at h
      cases h
      exact hk ▸ List.mem_cons_self _ _
    · rw [if_neg hk] at h
      exact List.mem_cons_of_mem _ (ih h)

/-! ### Concrete sample builds used by the witnesses and counterexamples -/

/-- Sample input: one line with a one-segment path. -/
def sample1 : List Str := [strOf ("A;1")]

/-- Sample input: one line with a two-segment path. -/
def sample2 : List Str := [strOf ("A;1.1")]

/-- Sample input: the specification's concrete three-line scenario. -/
def sample3 : List Str := [strOf ("A;1"), strOf ("B;1.1"), strOf ("C;1.1.1")]

/-- Extraction of the index from a successful build result. -/
def extractIx (r : Except BuildError MeSHTree) : MeSHTree :=
  match r with
  | .ok ix => ix
  | .error _ => { tree := [], locations := [] }

/-- The index built from `sample1`. -/
def sample1Ix : MeSHTree := extractIx (MeSHTreeFromReader sample1)

/-- The index built from `sample2`. -/
def sample2Ix : MeSHTree := extractIx (MeSHTreeFromReader sample2)

/-- The index built from `sample3`. -/
def sample3Ix : MeSHTree := extractIx (MeSHTreeFromReader sample3)

/-! ### The claims -/

/-- C5: for every input line, `treeReferenceFromString` returns a
`TreeReference` exactly when the line splits into exactly two parts on the
`;` separator; for any other count of parts it fails with a `FormatError`
that carries the offending line. -/
theorem parser_two_parts (line : Str) :
    ((splitOnChar ';' line).length = 2 ↔ ∃ ref, treeReferenceFromString line = .ok ref)
    ∧ ((splitOnChar ';' line).length ≠ 2 → treeReferenceFromString line = .error line) := by
  constructor
  · constructor
    · intro h
      obtain ⟨a, b, hs⟩ := List.length_eq_two.mp h
      exact ⟨_, parse_ok hs⟩
    · rintro ⟨ref, href⟩
      obtain ⟨p0, p1, hs, _, _⟩ := parse_ok_shape href
      rw [hs]
      rfl
  · exact parse_error

/-- Witness for C5 at the line `A;1`. -/
theorem parser_two_parts_witness :
    ∃ ref, treeReferenceFromString (strOf ("A;1")) = .ok ref :=
  (parser_two_parts (strOf ("A;1"))).1.mp (by decide)

/-- C8: for every well-formed line, the parse round-trips: the returned
heading is the part before the separator, and joining the returned path
segments with `.` reconstructs the original path string exactly (so heading,
separator and path string reassemble the line). -/
theorem parser_roundtrip (line p0 p1 : Str) (h : splitOnChar ';' line = [p0, p1]) :
    ∃ ref, treeReferenceFromString line = .ok ref ∧ ref.MedicalSubjectHeading = p0 ∧
      joinChar '.' ref.TreeLocation = p1 ∧ line = p0 ++ ';' :: p1 := by
  refine ⟨_, parse_ok h, rfl, joinChar_splitOnChar '.' p1, ?_⟩
  have h2 := joinChar_splitOnChar ';' line
  rw [h] at h2
  rw [← h2]
  rfl

/-- Witness for C8 at the line `A;1.2`. -/
theorem parser_roundtrip_witness :
    ∃ ref, treeReferenceFromString (strOf ("A;1.2")) = .ok ref ∧
      ref.MedicalSubjectHeading = strOf ("A") ∧
      joinChar '.' ref.TreeLocation = strOf ("1.2") ∧
      strOf ("A;1.2") = strOf ("A") ++ ';' :: strOf ("1.2") :=
  parser_roundtrip (strOf ("A;1.2")) (strOf ("A")) (strOf ("1.2")) (by decide)

/-- C7: for every built index and term, `Depth` returns the number of
segments of the first recorded path of the lower-cased term when the term is
present in the locations index, and `0` when it is absent. -/
theorem depth_first_path (lines : List Str) (ix : MeSHTree)
    (h : MeSHTreeFromReader lines = .ok ix) (term : Str) :
    (lookupL ix.locations (toLowerStr term) = none → MeSHTree.Depth ix term = 0)
    ∧ (∀ ps, lookupL ix.locations (toLowerStr term) = some ps →
        ∃ p rest, ps = p :: rest ∧ MeSHTree.Depth ix term = p.length) := by
  have hg := build_good h
  constructor
  · intro hnone
    unfold MeSHTree.Depth
    rw [hnone]
  · intro ps hps
    cases ps with
    | nil => exact absurd rfl (hg.2 (toLowerStr term, []) (lookupL_mem hps)).2.1
    | cons p rest =>
      refine ⟨p, rest, rfl, ?_⟩
      unfold MeSHTree.Depth
      rw [hps]

/-- Witness for C7 at the sample index of `A;1`, term `A`. -/
theorem depth_first_path_witness :
    ∃ p rest, ([[strOf ("1")]] : List (List Str)) = p :: rest ∧
      MeSHTree.Depth sample1Ix (strOf ("A")) = p.length :=
  (depth_first_path sample1 sample1Ix rfl (strOf ("A"))).2 [[strOf ("1")]] rfl

/-- C2 (evaluation at the failing input): feeding the well-formed lines
`A;1` then `B;1` — the second carrying a full path identical to the first —
makes the build hit the index-out-of-range access `location[0]` on an empty
slice in `Node.addChild`, instead of completing and absorbing the later
reference. -/
theorem duplicate_path_out_of_range :
    MeSHTreeFromReader [strOf ("A;1"), strOf ("B;1")] = .error .indexOutOfRange := rfl

/-- C6 (counterexample): a stream whose sole malformed line is `X` does not
surface the `FormatError` for `X` when an earlier pair of well-formed lines
already makes the build panic: the result is the index-out-of-range error,
not the `FormatError`. -/
theorem malformed_after_duplicate_not_format_error :
    MeSHTreeFromReader [strOf ("A;1"), strOf ("B;1"), strOf ("X")] = .error .indexOutOfRange
    ∧ BuildError.indexOutOfRange ≠ BuildError.formatError (strOf ("X")) :=
  ⟨rfl, by decide⟩

/-- C6 (amended): for every input stream whose prefix before a malformed
line builds successfully, the build aborts at that first malformed line and
returns the `FormatError` carrying it; no index is returned. -/
theorem build_aborts_at_first_malformed (pre : List Str) (l : Str) (post : List Str)
    (ix : MeSHTree) (hpre : MeSHTreeFromReader pre = .ok ix) (hl : wellFormed l = false) :
    MeSHTreeFromReader (pre ++ l :: post) = .error (.formatError l) := by
  unfold MeSHTreeFromReader at hpre ⊢
  rw [foldlM_build_append pre (l :: post) _ ix hpre]
  rw [foldlM_build_cons]
  have hp : treeReferenceFromString l = .error l := by
    apply parse_error
    intro h2
    rw [wellFormed] at hl
    simp [h2] at hl
  have hb : buildStep ix l = .error (.formatError l) := by
    unfold buildStep
    rw [hp]
  rw [hb]

/-- Witness for the amended C6: appending the malformed line `X` to the
sample stream `A;1` yields the `FormatError` carrying `X`. -/
theorem build_aborts_at_first_malformed_witness :
    MeSHTreeFromReader (sample1 ++ strOf ("X") :: []) = .error (.formatError (strOf ("X"))) :=
  build_aborts_at_first_malformed sample1 (strOf ("X")) [] sample1Ix rfl rfl

/-- C3 (counterexample): building from the single well-formed line `A;1.1`
succeeds, records the path `1.1` for the heading `a`, yet that path resolves
to no node of the tree — the only node sits at `1`. -/
theorem locations_path_unresolvable :
    MeSHTreeFromReader sample2 = .ok sample2Ix
    ∧ lookupL sample2Ix.locations (strOf ("a")) = some [[strOf ("1"), strOf ("1")]]
    ∧ resolveNode sample2Ix.tree [strOf ("1"), strOf ("1")] = none :=
  ⟨rfl, rfl, rfl⟩

/-- C3 (amended): in every successfully built index, every path appearing in
the locations index is non-empty and its first segment resolves to a node at
the tree root; the full path need not resolve. -/
theorem locations_head_resolvable (lines : List Str) (ix : MeSHTree)
    (h : MeSHTreeFromReader lines = .ok ix) :
    ∀ kv ∈ ix.locations, ∀ p ∈ kv.2,
      ∃ s0 rest, p = s0 :: rest ∧ (lookupT ix.tree s0).isSome := by
  intro kv hkv p hp
  exact (((build_good h).2 kv hkv).2.2 p hp).1

/-- Witness for the amended C3 at the sample index of `A;1.1`. -/
theorem locations_head_resolvable_witness :
    ∃ s0 rest, ([strOf ("1"), strOf ("1")] : List Str) = s0 :: rest ∧
      (lookupT sample2Ix.tree s0).isSome :=
  locations_head_resolvable sample2 sample2Ix rfl
    (strOf ("a"), [[strOf ("1"), strOf ("1")]]) (by decide)
    [strOf ("1"), strOf ("1")] (by decide)

/-- C10: in every successfully built index, every node reachable at depth `d`
stores a reference whose location has length at least `d`; consequently the
element-for-element comparison in `Parents` never indexes out of range — the
method never hits the modelled panic. -/
theorem node_depth_bound_and_parents_total (lines : List Str) (ix : MeSHTree)
    (h : MeSHTreeFromReader lines = .ok ix) :
    (∀ p n, resolveNode ix.tree p = some n → p.length ≤ n.Reference.TreeLocation.length)
    ∧ (∀ term, MeSHTree.Parents ix term ≠ none) := by
  have hg := build_good h
  constructor
  · intro p n hres
    have := resolveNode_invN p ix.tree 1 n hg.1 hres
    omega
  · intro term
    unfold MeSHTree.Parents
    cases hl : lookupL ix.locations (toLowerStr term) with
    | none => simp
    | some ls =>
      dsimp only
      rw [parentsLoop_eq hg.1 ls]
      simp

/-- Witness for C10 at the sample index of the three-line scenario. -/
theorem node_depth_bound_and_parents_total_witness :
    MeSHTree.Parents sample3Ix (strOf ("C")) ≠ none :=
  (node_depth_bound_and_parents_total sample3 sample3Ix rfl).2 (strOf ("C"))

/-- C4: for every built index and term, `Parents` returns, for each recorded
path of length greater than two, the headings of exactly those entries of the
tree resolved two segments up whose stored reference's path matches the path
one segment up element for element, concatenated over the recorded paths; and
for a term all of whose recorded paths have length at most two it returns the
empty sequence rather than an error. -/
theorem parents_spec (lines : List Str) (ix : MeSHTree)
    (h : MeSHTreeFromReader lines = .ok ix) (term : Str) :
    MeSHTree.Parents ix term = some ((pathsOf ix term).flatMap (parentsSpecAtLoc ix.tree))
    ∧ ((∀ p ∈ pathsOf ix term, p.length ≤ 2) → MeSHTree.Parents ix term = some []) := by
  have hg := build_good h
  have hmain : MeSHTree.Parents ix term =
      some ((pathsOf ix term).flatMap (parentsSpecAtLoc ix.tree)) := by
    unfold MeSHTree.Parents pathsOf
    cases hl : lookupL ix.locations (toLowerStr term) with
    | none => simp
    | some ls =>
      dsimp only [Option.getD]
      exact parentsLoop_eq hg.1 ls
  refine ⟨hmain, ?_⟩
  intro hall
  rw [hmain]
  have h0 : (pathsOf ix term).flatMap (parentsSpecAtLoc ix.tree) = [] := by
    apply List.flatMap_eq_nil_iff.mpr
    intro p hp
    unfold parentsSpecAtLoc
    rw [if_neg (by have := hall p hp; omega)]
  rw [h0]

/-- Witness for C4 at the sample index of the three-line scenario, term
`C`. -/
theorem parents_spec_witness :
    MeSHTree.Parents sample3Ix (strOf ("C")) =
      some ((pathsOf sample3Ix (strOf ("C"))).flatMap (parentsSpecAtLoc sample3Ix.tree)) :=
  (parents_spec sample3 sample3Ix rfl (strOf ("C"))).1

/-- C9: for every successfully built index and every query term, `Reference`
never reaches its panic branch: an absent term yields the nil return, and the
internal re-parse succeeds for every recorded path, because no locations key
and no stored path segment contains the `;` separator. -/
theorem reference_never_panics (lines : List Str) (ix : MeSHTree)
    (h : MeSHTreeFromReader lines = .ok ix) (term : Str) :
    MeSHTree.Reference ix term ≠ none
    ∧ (lookupL ix.locations (toLowerStr term) = none → MeSHTree.Reference ix term = some [])
    ∧ (∀ kv ∈ ix.locations, (';' ∉ kv.1) ∧ ∀ p ∈ kv.2, ∀ s ∈ p, ';' ∉ s) := by
  have hg := build_good h
  have hkv : ∀ kv ∈ ix.locations, (';' ∉ kv.1) ∧ ∀ p ∈ kv.2, ∀ s ∈ p, ';' ∉ s := by
    intro kv hkvm
    obtain ⟨h1, _, h3⟩ := hg.2 kv hkvm
    exact ⟨h1, fun p hp => (h3 p hp).2⟩
  refine ⟨?_, ?_, hkv⟩
  · unfold MeSHTree.Reference
    cases hl : lookupL ix.locations (toLowerStr term) with
    | none => simp
    | some ls =>
      have hmem := lookupL_mem hl
      obtain ⟨hsemi, hpaths⟩ := hkv (toLowerStr term, ls) hmem
      have hterm : ';' ∉ term := by
        intro hc
        exact hsemi ((semicolon_mem_toLowerStr_iff term).mpr hc)
      obtain ⟨rs, hrs⟩ := referenceLoop_some term hterm ls hpaths
      dsimp only
      rw [hrs]
      simp
  · intro hnone
    unfold MeSHTree.Reference
    rw [hnone]

/-- Witness for C9 at the sample index of `A;1`, term `A`. -/
theorem reference_never_panics_witness :
    MeSHTree.Reference sample1Ix (strOf ("A")) ≠ none :=
  (reference_never_panics sample1 sample1Ix rfl (strOf ("A"))).1

/-- C1 (counterexample): building from the single line `A;1` succeeds, the
single recorded path of `A` resolves to a node with no children, yet
`Explode` returns the empty sequence and not the one-element sequence
containing the term itself. -/
theorem explode_leaf_is_empty :
    MeSHTreeFromReader sample1 = .ok sample1Ix
    ∧ lookupL sample1Ix.locations (strOf ("a")) = some [[strOf ("1")]]
    ∧ (resolveNode sample1Ix.tree [strOf ("1")]).map Node.Children = some []
    ∧ MeSHTree.Explode sample1Ix (strOf ("A")) = []
    ∧ ([] : List Str) ≠ [strOf ("A")] := by
  refine ⟨rfl, rfl, rfl, ?_, by decide⟩
  unfold MeSHTree.Explode
  rw [show lookupL sample1Ix.locations (toLowerStr (strOf ("A"))) = some [[strOf ("1")]]
    from rfl]
  dsimp only
  simp only [List.flatMap_cons, List.flatMap_nil, List.append_nil]
  rw [show Tree.At sample1Ix.tree [strOf ("1")] = [] from rfl]
  simp [Tree.Terms]

/-- C1 (amended): for every built index and term, `Explode` returns, for each
path recorded for the lower-cased term in insertion order, concatenated
without deduplication, the headings of the strict descendants of the node the
path resolves to (the resolved node's own heading is not included, and an
unresolvable path contributes nothing); in particular, for a term whose
single recorded path resolves to a node with no children, `Explode` returns
the empty sequence. -/
theorem explode_strict_descendants (lines : List Str) (ix : MeSHTree)
    (h : MeSHTreeFromReader lines = .ok ix) (term : Str) :
    MeSHTree.Explode ix term = (pathsOf ix term).flatMap (descendantHeadingsAt ix.tree)
    ∧ (∀ p n, pathsOf ix term = [p] → resolveNode ix.tree p = some n → n.Children = [] →
        MeSHTree.Explode ix term = []) := by
  have hg := build_good h
  have hmain : MeSHTree.Explode ix term =
      (pathsOf ix term).flatMap (descendantHeadingsAt ix.tree) := by
    unfold MeSHTree.Explode pathsOf
    cases hl : lookupL ix.locations (toLowerStr term) with
    | none => simp
    | some ls =>
      dsimp only [Option.getD]
      apply List.flatMap_congr
      intro p hp
      have hpne : p ≠ [] := by
        obtain ⟨⟨s0, rest, he, _⟩, _⟩ :=
          (hg.2 (toLowerStr term, ls) (lookupL_mem hl)).2.2 p hp
        rw [he]
        simp
      rw [at_eq_resolveNode p ix.tree hpne]
      unfold descendantHeadingsAt
      cases resolveNode ix.tree p with
      | none => simp [Tree.Terms]
      | some n =>
        dsimp only
        exact terms_eq_forest n.Children
  refine ⟨hmain, ?_⟩
  intro p n hps hres hch
  rw [hmain, hps]
  simp only [List.flatMap_cons, List.flatMap_nil, List.append_nil]
  unfold descendantHeadingsAt
  rw [hres]
  dsimp only
  rw [hch]
  simp [forestSubtreeHeadings]

/-- Witness for the amended C1 at the sample index of the three-line
scenario, term `A`. -/
theorem explode_strict_descendants_witness :
    MeSHTree.Explode sample3Ix (strOf ("A")) =
      (pathsOf sample3Ix (strOf ("A"))).flatMap (descendantHeadingsAt sample3Ix.tree) :=
  (explode_strict_descendants sample3 sample3Ix rfl (strOf ("A"))).1

end Meshexp
